import Mathlib

/-!
Verification development for the `reminder` maubot plugin.

Shallow embedding conventions:
* Instants (`datetime` values) are natural numbers counting microseconds
  since the epoch; `t % 1000000` is the `microsecond` field of `t`.
* Text handled character-by-character (the argument of `parse_date`, the
  consumed substrings) is `List Char`; rendered messages are `String`.
* The external `dateparser` library (`dateparser.parse`, `search_dates`,
  `strftime` rendering) is abstracted as an oracle structure `DateOracle`;
  the code under verification is everything `util.py` builds around it.
-/

set_option maxRecDepth 10000

namespace Reminder

/-! ## Character classes (model of Python's `\s`, `\w`, `\d` on ASCII text) -/

def isSpaceChar (c : Char) : Bool :=
  c == ' ' || c == '\t' || c == '\n' || c == '\r' || c == '\x0b' || c == '\x0c'

def isWordChar (c : Char) : Bool :=
  c.isAlphanum || c == '_'

/-! ## `re.sub(r"(\b\d+)\s?w\b", r"\1wk", s, count=1)`  (util.py line 183) -/

/-- Python word boundary `\b` placed after a word character: holds when the
remaining text is empty or starts with a non-word character. -/
def wbAfter : List Char → Bool
  | [] => true
  | c :: _ => !(isWordChar c)

/-- Match the `\s?w\b` tail of the pattern against the text following the
digit group: either `w` immediately (with a word boundary after it), or one
whitespace character then `w` (boundary after).  The regex engine cannot
backtrack into another alternative here, since neither a digit nor `w` is
whitespace.  Returns the text after the matched `w`. -/
def afterDigits (xs : List Char) : Option (List Char) :=
  match xs with
  | [] => none
  | c :: rest =>
    if c = 'w' then (if wbAfter rest then some rest else none)
    else if isSpaceChar c then
      match rest with
      | [] => none
      | c2 :: r => if c2 = 'w' then (if wbAfter r then some r else none) else none
    else none

/-- Attempt to match `(\b\d+)\s?w\b` at the head of `cs`; `bnd` says whether a
word boundary precedes (previous character absent or not a word character).
Returns the captured digit group and the text after the matched `w`. -/
def weekMatchHead (bnd : Bool) (cs : List Char) : Option (List Char × List Char) :=
  if bnd then
    let ds := cs.takeWhile Char.isDigit
    if ds.isEmpty then none
    else (afterDigits (cs.drop ds.length)).map (fun r => (ds, r))
  else none

def bndOf : Option Char → Bool
  | none => true
  | some p => !(isWordChar p)

/-- Left-to-right scan of `re.sub(..., count=1)`: at the first position where
the pattern matches, splice in the replacement `\1wk` and stop. -/
def weekSubGo : Option Char → List Char → List Char
  | _, [] => []
  | prev, c :: rest =>
    match weekMatchHead (bndOf prev) (c :: rest) with
    | some (ds, r) => ds ++ 'w' :: 'k' :: r
    | none => c :: weekSubGo (some c) rest

/-- The week-shorthand normalization applied by `parse_date` before parsing. -/
def weekSub (s : List Char) : List Char := weekSubGo none s

/-! ## Token boundaries: `islice(re.finditer(r"\S+", s), 8)` end positions -/

def tokenEndsGo : List Char → Nat → List Nat
  | [], _ => []
  | [c], i => if isSpaceChar c then [] else [i + 1]
  | c :: d :: rest, i =>
    if isSpaceChar c then tokenEndsGo (d :: rest) (i + 1)
    else if isSpaceChar d then (i + 1) :: tokenEndsGo (d :: rest) (i + 1)
    else tokenEndsGo (d :: rest) (i + 1)

/-- End positions (`m.end()`) of the maximal non-whitespace runs of `s`. -/
def tokenEnds (s : List Char) : List Nat := tokenEndsGo s 0

/-! ## User context and the dateparser oracle -/

structure UserInfo where
  locale : String
  timezone : String
deriving DecidableEq

/-- Abstraction of the external `dateparser` library.  `parse ui text` stands
for `dateparser.parse(text, locales=[ui.locale], settings=settings(ui))`;
`search_dates lang ui text` stands for
`search_dates(text, languages=[lang], settings=settings(ui))`, returning
(matched span, resolved instant) pairs; `strftime tz fmt t` stands for
`t.astimezone(get_timezone_from_tz_string(tz)).strftime(fmt)`. -/
structure DateOracle where
  parse : UserInfo → List Char → Option Nat
  search_dates : String → UserInfo → List Char → List (List Char × Nat)
  strftime : String → String → Nat → String

/-- `locale.split('-')[0]`: the primary-language part of a locale tag. -/
def primaryLang (locale : String) : String :=
  (locale.toList.takeWhile (fun c => c ≠ '-')).asString

/-! ## The prefix-anchored strategy (util.py lines 193-200) -/

/-- The loop body: try `p` on the prefix of `s` ending at each boundary in
`es` (in the order of `es`), returning the first successful parse together
with the exact prefix. -/
def findFirstParse (p : List Char → Option Nat) (s : List Char) : List Nat → Option (Nat × List Char)
  | [] => none
  | e :: es =>
    match p (s.take e) with
    | some d => some (d, s.take e)
    | none => findFirstParse p s es

/-- `for i in reversed(list(islice(re.finditer(r"\S+", s), 8))): ...` -/
def anchoredSearch (p : List Char → Option Nat) (s : List Char) : Option (Nat × List Char) :=
  findFirstParse p s (((tokenEnds s).take 8).reverse)

/-! ## parse_date (util.py lines 162-218) -/

/-- `date.replace(microsecond=0)` on a microsecond-count instant. -/
def truncUsec (t : Nat) : Nat := t / 1000000 * 1000000

def pluralize (v : Nat) (unit : String) : String :=
  if v = 1 then toString v ++ " " ++ unit else toString v ++ " " ++ unit ++ "s"

def defaultTimeFormat : String := "%-I:%M%P %Z on %A, %B %-d %Y"

/-- `format_time` (util.py lines 225-260): within seven days of `now`, render
the two most significant components of the time difference; otherwise render
with `strftime` in the user's timezone. -/
def format_time (O : DateOracle) (nowRaw : Nat) (time : Nat) (ui : UserInfo) (fmt : String) : String :=
  let now := truncUsec nowRaw
  let delta := if now ≤ time then time - now else now - time
  if delta ≤ 604800000000 then
    let days := delta / 86400000000
    let secs := delta % 86400000000 / 1000000
    let minutesAll := secs / 60
    let s1 := secs % 60
    let hours := minutesAll / 60
    let minutes := minutesAll % 60
    let parts :=
      (if days > 0 then [pluralize days ("day")] else []) ++
      (if hours > 0 then [pluralize hours ("hour")] else []) ++
      (if minutes > 0 then [pluralize minutes ("minute")] else []) ++
      (if s1 > 0 then [pluralize s1 ("second")] else [])
    let ft := String.intercalate (" and ") (parts.take 2)
    if now < time then "in " ++ ft else ft ++ " ago"
  else O.strftime ui.timezone fmt time

def parseDateExamples : String :=
  "Examples: `Tuesday at noon`, `2023-11-30 10:15 pm`, `July 2`, `6 hours`, `8pm`, `4d`, `2wk`"

/-- Message of the `CommandSyntaxError` raised when no date is found; the
constructor appends the usage examples after a blank line. -/
def dateNotFoundMsg : String :=
  "Unable to extract date from string" ++ "\n\n" ++ parseDateExamples

/-- Message of the `CommandSyntaxError` raised for a past date. -/
def pastDateMsg (formatted : String) : String :=
  "Sorry, `" ++ formatted ++ "` is in the past and I don't have a time machine (yet...)"

inductive ParseOutcome where
  | ok (date : Nat) (dateStr : List Char)
  | err (message : String)
deriving DecidableEq

/-- The date-extraction core of `parse_date`: the prefix-anchored loop, then
the `search_dates` fallback on the whole (normalized) string, keeping the
first match.  Returns (instant, consumed substring). -/
def extractDate (O : DateOracle) (ui : UserInfo) (s : List Char) : Option (Nat × List Char) :=
  match anchoredSearch (O.parse ui) s with
  | some r => some r
  | none =>
    match O.search_dates (primaryLang ui.locale) ui s with
    | [] => none
    | (t, d) :: _ => some (d, t)

/-- `parse_date` (util.py lines 162-218) with the clock injected as `now`:
normalize the week shorthand, extract a date, truncate it to whole seconds,
and reject instants strictly before `now`. -/
def parse_date (O : DateOracle) (now : Nat) (str_with_time : List Char) (ui : UserInfo) : ParseOutcome :=
  let s := weekSub str_with_time
  match extractDate O ui s with
  | none => .err dateNotFoundMsg
  | some (d, ds) =>
    let d2 := truncUsec d
    if d2 < now then .err (pastDateMsg (format_time O now d2 ui defaultTimeFormat))
    else .ok d2 ds

/-! ## Rate limiter (util.py lines 125-139) -/

/-- The eviction `while` loop: pop from the front while the front timestamp
has left the sliding window (`ts + window < now`). -/
def evictExpired (windowUsec now : Nat) : List Nat → List Nat
  | [] => []
  | t :: rest => if t + windowUsec < now then evictExpired windowUsec now rest else t :: rest

/-- `UserInfo.check_rate_limit`: evict expired timestamps, append `now` only
when below the cap, and return the queue together with its length. -/
def check_rate_limit (q : List Nat) (now : Nat) (maxCalls timeWindow : Nat) : List Nat × Nat :=
  let q1 := evictExpired (timeWindow * 60000000) now q
  let q2 := if q1.length < maxCalls then q1 ++ [now] else q1
  (q2, q2.length)

/-! ## validate_timezone (util.py lines 150-154) -/

inductive TzValidation where
  | name (n : String)
  | invalid
deriving DecidableEq

/-- `validate_timezone`: `resolve` abstracts
`dateparser.utils.get_timezone_from_tz_string(tz).tzname(None)`, whose only
failure mode is `pytz.UnknownTimeZoneError` (the `none` case), caught and
turned into the Python `False` marker (`invalid`). -/
def validate_timezone (resolve : String → Option String) (tz : String) : TzValidation :=
  match resolve tz with
  | some n => .name n
  | none => .invalid

/-! ## Store model (migrations.py, upgrade_v1 DDL)

Modelled from the spec: the Store implementation (`db.py`, referenced by
`migrations.py` but absent from the sources) exposes
create/delete/add_subscription/remove_subscription per spec section 6; the
`reminder_target` DDL in `upgrade_v1` declares
`FOREIGN KEY (event_id) REFERENCES reminder (event_id) ON DELETE CASCADE`
and `PRIMARY KEY (user_id, event_id)`, whose SQL semantics the operations
below embed: inserting a subscription requires an existing reminder and a
fresh key, and deleting a reminder deletes its subscription rows. -/

structure StoreState where
  reminders : List String
  subs : List (String × String)
deriving DecidableEq

/-- Modelled from the spec: `Store.create(reminder)` inserting into the
`reminder` table (primary key `event_id`). -/
def createReminder (st : StoreState) (eid : String) : StoreState :=
  if eid ∈ st.reminders then st else { st with reminders := eid :: st.reminders }

/-- Modelled from the spec: `Store.add_subscription`; the insert succeeds only
when the referenced reminder exists (foreign key) and the (event, user) pair
is new (primary key). -/
def addSubscription (st : StoreState) (eid uid : String) : StoreState :=
  if eid ∈ st.reminders ∧ (eid, uid) ∉ st.subs then
    { st with subs := (eid, uid) :: st.subs }
  else st

/-- Modelled from the spec: `Store.remove_subscription`. -/
def removeSubscription (st : StoreState) (eid uid : String) : StoreState :=
  { st with subs := st.subs.filter (fun p => p ≠ (eid, uid)) }

/-- Modelled from the spec: `Store.delete(id)`; the `ON DELETE CASCADE`
clause of the `reminder_target` table removes every subscription row whose
`event_id` references the deleted reminder. -/
def deleteReminder (st : StoreState) (eid : String) : StoreState :=
  { reminders := st.reminders.filter (fun e => e ≠ eid),
    subs := st.subs.filter (fun p => p.1 ≠ eid) }

/-- Store states reachable from the empty database through the Store
interface. -/
inductive Reachable : StoreState → Prop
  | empty : Reachable { reminders := [], subs := [] }
  | create {st : StoreState} (e : String) : Reachable st → Reachable (createReminder st e)
  | subscribe {st : StoreState} (e u : String) : Reachable st → Reachable (addSubscription st e u)
  | unsubscribe {st : StoreState} (e u : String) : Reachable st → Reachable (removeSubscription st e u)
  | delete {st : StoreState} (e : String) : Reachable st → Reachable (deleteReminder st e)

/-- No subscription row references a missing reminder. -/
def NoOrphans (st : StoreState) : Prop :=
  ∀ p ∈ st.subs, p.1 ∈ st.reminders

/-! ## upgrade_v2 (migrations.py lines 63-73)

Rows are (event_id, message) pairs; a `none` message is SQL `NULL`.  `enc`
and `dec` abstract `Fernet(ENCRYPTION_KEY).encrypt` / `.decrypt`, with
`dec m = none` standing for the decryption call raising (the bare `except`
branch). -/

/-- The per-row action of `upgrade_v2`: rows with `NULL` or empty messages
are not selected; a message that test-decrypts is left alone; otherwise the
message is encrypted and written back. -/
def encryptRow (enc : List Char → List Char) (dec : List Char → Option (List Char))
    (r : String × Option (List Char)) : String × Option (List Char) :=
  match r.2 with
  | none => r
  | some m =>
    if m = [] then r
    else
      match dec m with
      | some _ => r
      | none => (r.1, some (enc m))

/-- `upgrade_v2` over the fetched rows. -/
def upgrade_v2 (enc : List Char → List Char) (dec : List Char → Option (List Char))
    (rows : List (String × Option (List Char))) : List (String × Option (List Char)) :=
  rows.map (encryptRow enc dec)

/-! ## Specification-side characterization of the week normalization (C5) -/

/-- Word boundary before position `p` of `cs`, where `prev` is the character
just before `cs` (if any): the previous character must not be a word
character. -/
def bndIn (prev : Option Char) (cs : List Char) (p : Nat) : Bool :=
  match p with
  | 0 => bndOf prev
  | q + 1 => !(isWordChar (cs.getD q ' '))

/-- Leftmost position of `cs` where the week-shorthand pattern matches. -/
def firstWeekPos (prev : Option Char) (cs : List Char) : Option Nat :=
  (List.range cs.length).find? (fun q => (weekMatchHead (bndIn prev cs q) (cs.drop q)).isSome)

/-- Declarative form of one `re.sub` step: leave the text unchanged when the
pattern matches nowhere, otherwise splice the replacement in at the leftmost
match position, keeping everything before and after intact. -/
def specGo (prev : Option Char) (cs : List Char) : List Char :=
  match firstWeekPos prev cs with
  | none => cs
  | some q =>
    match weekMatchHead (bndIn prev cs q) (cs.drop q) with
    | some (ds, r) => cs.take q ++ ds ++ 'w' :: 'k' :: r
    | none => cs

/-- Declarative counterpart of `weekSub`. -/
def specWeekSub (s : List Char) : List Char := specGo none s

/-- Declarative reading of the pattern `(\b\d+)\s?w\b`: a word boundary, a
nonempty digit group `ds`, an optional single whitespace character, the
letter `w`, and a word boundary after it; `r` is the remaining text. -/
def IsWeekMatch (bnd : Bool) (cs ds r : List Char) : Prop :=
  bnd = true ∧ ds ≠ [] ∧ (∀ c ∈ ds, c.isDigit) ∧
  (cs = ds ++ 'w' :: r ∨ ∃ sp, isSpaceChar sp ∧ cs = ds ++ sp :: 'w' :: r) ∧
  (r = [] ∨ ∃ c r2, r = c :: r2 ∧ isWordChar c = false)

/-! ## Concrete instantiations used by counterexamples and witnesses -/

def ui0 : UserInfo := { locale := "en", timezone := "UTC" }

/-- Oracle whose `dateparser.parse` resolves every nonempty prefix to the
fixed instant `d` and whose `search_dates` finds nothing. -/
def oracleConst (d : Nat) : DateOracle :=
  { parse := fun _ _ => some d
    search_dates := fun _ _ _ => []
    strftime := fun _ _ _ => "" }

/-- Oracle that never finds a date. -/
def oracleNone : DateOracle :=
  { parse := fun _ _ => none
    search_dates := fun _ _ _ => []
    strftime := fun _ _ _ => "" }

/-- Oracle whose `dateparser.parse` result depends only on the length of the
tried prefix, and whose `search_dates` finds nothing. -/
def oracleByLen (f : Nat → Option Nat) : DateOracle :=
  { parse := fun _ t => f t.length
    search_dates := fun _ _ _ => []
    strftime := fun _ _ _ => "" }

/-- Oracle whose prefix parser always fails, while `search_dates` returns the
single match `(t, d)`. -/
def oracleSearchOnly (t : List Char) (d : Nat) : DateOracle :=
  { parse := fun _ _ => none
    search_dates := fun _ _ _ => [(t, d)]
    strftime := fun _ _ _ => "" }

/-! # Helper lemmas -/

lemma evictExpired_eq_dropWhile (w n : Nat) :
    ∀ q : List Nat, evictExpired w n q = q.dropWhile (fun t => t + w < n) := by
  intro q
  induction q with
  | nil => rfl
  | cons t rest ih =>
    by_cases h : t + w < n
    · simp [evictExpired, List.dropWhile, h, ih]
    · simp [evictExpired, List.dropWhile, h]

lemma tokenEndsGo_lt (cs : List Char) : ∀ i : Nat, ∀ e ∈ tokenEndsGo cs i, i < e := by
  induction cs with
  | nil => intro i e he; simp [tokenEndsGo] at he
  | cons c rest ih =>
    intro i e he
    cases rest with
    | nil =>
      simp only [tokenEndsGo] at he
      split at he
      · simp at he
      · simp at he; omega
    | cons d rest2 =>
      simp only [tokenEndsGo] at he
      split at he
      · have := ih (i + 1) e he; omega
      · split at he
        · rcases List.mem_cons.mp he with rfl | he2
          · omega
          · have := ih (i + 1) e he2; omega
        · have := ih (i + 1) e he; omega

lemma tokenEndsGo_pairwise (cs : List Char) : ∀ i : Nat, (tokenEndsGo cs i).Pairwise (· < ·) := by
  induction cs with
  | nil => intro i; simp [tokenEndsGo]
  | cons c rest ih =>
    intro i
    cases rest with
    | nil =>
      simp only [tokenEndsGo]
      split
      · simp
      · simp
    | cons d rest2 =>
      simp only [tokenEndsGo]
      split
      · exact ih (i + 1)
      · split
        · refine List.Pairwise.cons ?_ (ih (i + 1))
          intro e he
          have := tokenEndsGo_lt (d :: rest2) (i + 1) e he
          omega
        · exact ih (i + 1)

lemma findFirstParse_eq_none (p : List Char → Option Nat) (s : List Char) :
    ∀ es : List Nat, (∀ e ∈ es, p (s.take e) = none) → findFirstParse p s es = none := by
  intro es
  induction es with
  | nil => intro _; rfl
  | cons a es ih =>
    intro h
    simp only [findFirstParse, h a (List.mem_cons_self a es)]
    exact ih (fun e he => h e (List.mem_cons_of_mem a he))

lemma findFirstParse_max (p : List Char → Option Nat) (s : List Char) :
    ∀ es : List Nat, es.Pairwise (fun a b => b < a) →
    ∀ e ∈ es, (p (s.take e)).isSome →
    ∃ e2 d, e2 ∈ es ∧ e ≤ e2 ∧ p (s.take e2) = some d ∧
      (∀ e3 ∈ es, e2 < e3 → p (s.take e3) = none) ∧
      findFirstParse p s es = some (d, s.take e2) := by
  intro es
  induction es with
  | nil => intro _ e he; simp at he
  | cons a es ih =>
    intro hpw e he hs
    have ha : ∀ b ∈ es, b < a := (List.pairwise_cons.mp hpw).1
    have hpw2 := (List.pairwise_cons.mp hpw).2
    cases hp : p (s.take a) with
    | some d =>
      refine ⟨a, d, List.mem_cons_self a es, ?_, hp, ?_, ?_⟩
      · rcases List.mem_cons.mp he with rfl | he2
        · exact Nat.le_refl e
        · exact Nat.le_of_lt (ha e he2)
      · intro e3 he3 hlt
        rcases List.mem_cons.mp he3 with rfl | he32
        · exact absurd hlt (lt_irrefl _)
        · have h3 := ha e3 he32
          exact absurd hlt (by omega)
      · simp only [findFirstParse, hp]
    | none =>
      have he2 : e ∈ es := by
        rcases List.mem_cons.mp he with rfl | h2
        · rw [hp] at hs; simp at hs
        · exact h2
      obtain ⟨e2, d, hmem, hle, hpe, hmax, hfind⟩ := ih hpw2 e he2 hs
      refine ⟨e2, d, List.mem_cons_of_mem a hmem, hle, hpe, ?_, ?_⟩
      · intro e3 he3 hlt
        rcases List.mem_cons.mp he3 with rfl | he32
        · exact hp
        · exact hmax e3 he32 hlt
      · simp only [findFirstParse, hp]
        exact hfind

lemma parse_date_of_anchored (O : DateOracle) (now : Nat) (s : List Char) (ui : UserInfo)
    (d : Nat) (t : List Char)
    (h : anchoredSearch (O.parse ui) (weekSub s) = some (d, t)) :
    parse_date O now s ui =
      (if truncUsec d < now then
        .err (pastDateMsg (format_time O now (truncUsec d) ui defaultTimeFormat))
      else .ok (truncUsec d) t) := by
  simp only [parse_date, extractDate, h]

lemma isSpaceChar_cases (c : Char) (h : isSpaceChar c = true) :
    c = ' ' ∨ c = '\t' ∨ c = '\n' ∨ c = '\r' ∨ c = '\x0b' ∨ c = '\x0c' := by
  simp only [isSpaceChar, Bool.or_eq_true, beq_iff_eq] at h
  tauto

lemma isSpaceChar_ne_w (c : Char) (h : isSpaceChar c = true) : c ≠ 'w' := by
  rcases isSpaceChar_cases c h with rfl | rfl | rfl | rfl | rfl | rfl <;> decide

lemma isSpaceChar_not_digit (c : Char) (h : isSpaceChar c = true) : c.isDigit = false := by
  rcases isSpaceChar_cases c h with rfl | rfl | rfl | rfl | rfl | rfl <;> decide

lemma wbAfter_iff (r : List Char) :
    wbAfter r = true ↔ (r = [] ∨ ∃ c r2, r = c :: r2 ∧ isWordChar c = false) := by
  cases r with
  | nil => simp [wbAfter]
  | cons c r2 =>
    simp only [wbAfter, Bool.not_eq_true']
    constructor
    · intro h
      exact Or.inr ⟨c, r2, rfl, h⟩
    · rintro (h | ⟨c3, r3, heq, h⟩)
      · simp at h
      · injection heq with h1 _
        rw [h1]
        exact h

lemma afterDigits_eq_some_iff (xs r : List Char) :
    afterDigits xs = some r ↔
      ((xs = 'w' :: r ∧ wbAfter r = true) ∨
       ∃ sp, isSpaceChar sp = true ∧ xs = sp :: 'w' :: r ∧ wbAfter r = true) := by
  cases xs with
  | nil => simp [afterDigits]
  | cons c rest =>
    constructor
    · intro h
      simp only [afterDigits] at h
      split at h
      · next hc =>
        subst hc
        split at h
        · next hwb =>
          injection h with h2
          subst h2
          exact Or.inl ⟨rfl, hwb⟩
        · exact Option.noConfusion h
      · next hc =>
        split at h
        · next hsp =>
          split at h
          · exact Option.noConfusion h
          · next c2 r2 =>
            split at h
            · next hw2 =>
              subst hw2
              split at h
              · next hwb =>
                injection h with h2
                subst h2
                exact Or.inr ⟨c, hsp, rfl, hwb⟩
              · exact Option.noConfusion h
            · exact Option.noConfusion h
        · exact Option.noConfusion h
    · rintro (⟨heq, hwb⟩ | ⟨sp, hsp, heq, hwb⟩)
      · injection heq with h1 h2
        subst h1
        subst h2
        simp [afterDigits, hwb]
      · injection heq with h1 h2
        subst h1
        subst h2
        simp [afterDigits, hwb, hsp, isSpaceChar_ne_w _ hsp]

lemma takeWhile_digits_append (ds : List Char) (c : Char) (t : List Char)
    (hd : ∀ x ∈ ds, x.isDigit) (hc : c.isDigit = false) :
    (ds ++ c :: t).takeWhile Char.isDigit = ds := by
  induction ds with
  | nil => simp [List.takeWhile_cons, hc]
  | cons d ds2 ih =>
    have hdd : d.isDigit = true := hd d (List.mem_cons_self d ds2)
    simp only [List.cons_append, List.takeWhile_cons, hdd, if_true]
    rw [ih (fun x hx => hd x (List.mem_cons_of_mem d hx))]

lemma drop_takeWhile_length {α : Type} (p : α → Bool) (l : List α) :
    l.drop (l.takeWhile p).length = l.dropWhile p := by
  induction l with
  | nil => rfl
  | cons a l ih =>
    by_cases h : p a
    · simp [List.takeWhile_cons, List.dropWhile_cons, h, ih]
    · simp [List.takeWhile_cons, List.dropWhile_cons, h]

lemma weekMatchHead_eq_some_iff (bnd : Bool) (cs ds r : List Char) :
    weekMatchHead bnd cs = some (ds, r) ↔ IsWeekMatch bnd cs ds r := by
  cases bnd with
  | false => simp [weekMatchHead, IsWeekMatch]
  | true =>
    simp only [weekMatchHead, if_true]
    constructor
    · intro h
      by_cases hemp : (cs.takeWhile Char.isDigit).isEmpty
      · rw [if_pos hemp] at h
        exact Option.noConfusion h
      · rw [if_neg hemp] at h
        obtain ⟨r0, har, hpair⟩ := Option.map_eq_some'.mp h
        have h1 : cs.takeWhile Char.isDigit = ds := congrArg Prod.fst hpair
        have h2 : r0 = r := congrArg Prod.snd hpair
        subst h2
        rw [drop_takeWhile_length] at har
        rcases (afterDigits_eq_some_iff _ r0).mp har with ⟨heq, hwb⟩ | ⟨sp, hsp, heq, hwb⟩
        · refine ⟨rfl, ?_, ?_, Or.inl ?_, (wbAfter_iff r0).mp hwb⟩
          · rw [← h1]
            exact fun hnil => hemp (List.isEmpty_iff.mpr hnil)
          · rw [← h1]
            exact fun c hc => List.mem_takeWhile_imp hc
          · have h3 : cs = cs.takeWhile Char.isDigit ++ cs.dropWhile Char.isDigit :=
              (List.takeWhile_append_dropWhile _ _).symm
            rw [heq, h1] at h3
            exact h3
        · refine ⟨rfl, ?_, ?_, Or.inr ⟨sp, hsp, ?_⟩, (wbAfter_iff r0).mp hwb⟩
          · rw [← h1]
            exact fun hnil => hemp (List.isEmpty_iff.mpr hnil)
          · rw [← h1]
            exact fun c hc => List.mem_takeWhile_imp hc
          · have h3 : cs = cs.takeWhile Char.isDigit ++ cs.dropWhile Char.isDigit :=
              (List.takeWhile_append_dropWhile _ _).symm
            rw [heq, h1] at h3
            exact h3
    · rintro ⟨-, hne, hdig, hstruct, hwb⟩
      have hwb2 : wbAfter r = true := (wbAfter_iff r).mpr hwb
      rcases hstruct with heq | ⟨sp, hsp, heq⟩
      · subst heq
        have htw : ((ds ++ 'w' :: r).takeWhile Char.isDigit) = ds :=
          takeWhile_digits_append ds 'w' r hdig (by decide)
        rw [htw]
        rw [if_neg (fun hemp => hne (List.isEmpty_iff.mp hemp))]
        rw [List.drop_left]
        have ha : afterDigits ('w' :: r) = some r :=
          (afterDigits_eq_some_iff ('w' :: r) r).mpr (Or.inl ⟨rfl, hwb2⟩)
        rw [ha]
        rfl
      · subst heq
        have htw : ((ds ++ sp :: 'w' :: r).takeWhile Char.isDigit) = ds :=
          takeWhile_digits_append ds sp ('w' :: r) hdig (isSpaceChar_not_digit sp hsp)
        rw [htw]
        rw [if_neg (fun hemp => hne (List.isEmpty_iff.mp hemp))]
        rw [List.drop_left]
        have ha : afterDigits (sp :: 'w' :: r) = some r :=
          (afterDigits_eq_some_iff (sp :: 'w' :: r) r).mpr (Or.inr ⟨sp, hsp, rfl, hwb2⟩)
        rw [ha]
        rfl

lemma bndIn_cons (prev : Option Char) (c : Char) (rest : List Char) (p : Nat) :
    bndIn prev (c :: rest) (p + 1) = bndIn (some c) rest p := by
  cases p with
  | zero => simp [bndIn, bndOf, List.getD_cons_zero]
  | succ q => simp [bndIn, List.getD_cons_succ]

lemma weekSubGo_eq_specGo : ∀ (cs : List Char) (prev : Option Char),
    weekSubGo prev cs = specGo prev cs := by
  intro cs
  induction cs with
  | nil => intro prev; simp [weekSubGo, specGo, firstWeekPos]
  | cons c rest ih =>
    intro prev
    simp only [weekSubGo]
    simp only [specGo, firstWeekPos, List.length_cons, List.range_succ_eq_map]
    set P : Nat → Bool :=
      fun q => (weekMatchHead (bndIn prev (c :: rest) q) (List.drop q (c :: rest))).isSome
      with hP
    cases hm : weekMatchHead (bndOf prev) (c :: rest) with
    | some pr =>
      obtain ⟨ds, r⟩ := pr
      have h0 : P 0 = true := by
        rw [hP]
        simp [bndIn, hm]
      rw [List.find?_cons_of_pos _ h0]
      simp [bndIn, hm]
    | none =>
      rw [ih (some c)]
      have h0 : ¬ (P 0 = true) := by
        rw [hP]
        simp [bndIn, hm]
      rw [List.find?_cons_of_neg _ h0]
      rw [List.find?_map]
      set Q : Nat → Bool :=
        fun q => (weekMatchHead (bndIn (some c) rest q) (List.drop q rest)).isSome
        with hQ
      have hpred : P ∘ Nat.succ = Q := by
        funext q
        rw [hP, hQ]
        simp only [Function.comp_apply, Nat.succ_eq_add_one, bndIn_cons, List.drop_succ_cons]
      rw [hpred]
      cases hf : (List.range rest.length).find? Q with
      | none => simp [specGo, firstWeekPos, hf]
      | some q =>
        have hsome := List.find?_some hf
        rw [hQ] at hsome
        simp only at hsome
        cases hm2 : weekMatchHead (bndIn (some c) rest q) (List.drop q rest) with
        | none => rw [hm2] at hsome; simp at hsome
        | some pr2 =>
          obtain ⟨ds2, r2⟩ := pr2
          simp only [specGo, firstWeekPos, hf, Option.map_some', Nat.succ_eq_add_one,
            bndIn_cons, List.drop_succ_cons, hm2, List.take_succ_cons, List.cons_append]

/-! # Claim theorems -/

/-- C2: the sliding-window rate limiter first evicts, from the front of the
queue, every timestamp older than `now` minus the window; it appends `now`
only when the post-eviction count is below `maxCalls`, and returns the
resulting count (the unmodified count when at or above the cap).  With
`maxCalls = 5`, `timeWindow = 60` minutes: five calls one minute apart
record and return 1,2,3,4,5; a sixth immediate call returns 5 without
recording; after a 61-minute advance the next call evicts everything,
records, and returns 1. -/
theorem check_rate_limit_spec :
    (∀ (q : List Nat) (now maxCalls timeWindow : Nat),
      check_rate_limit q now maxCalls timeWindow =
        (let q1 := q.dropWhile (fun t => t + timeWindow * 60000000 < now)
         if q1.length < maxCalls then (q1 ++ [now], q1.length + 1) else (q1, q1.length)))
    ∧ check_rate_limit [] 0 5 60 = ([0], 1)
    ∧ check_rate_limit [0] 60000000 5 60 = ([0, 60000000], 2)
    ∧ check_rate_limit [0, 60000000] 120000000 5 60 = ([0, 60000000, 120000000], 3)
    ∧ check_rate_limit [0, 60000000, 120000000] 180000000 5 60 =
        ([0, 60000000, 120000000, 180000000], 4)
    ∧ check_rate_limit [0, 60000000, 120000000, 180000000] 240000000 5 60 =
        ([0, 60000000, 120000000, 180000000, 240000000], 5)
    ∧ check_rate_limit [0, 60000000, 120000000, 180000000, 240000000] 240000000 5 60 =
        ([0, 60000000, 120000000, 180000000, 240000000], 5)
    ∧ check_rate_limit [0, 60000000, 120000000, 180000000, 240000000] 3900000000 5 60 =
        ([3900000000], 1) := by
  refine ⟨?_, by decide, by decide, by decide, by decide, by decide, by decide, by decide⟩
  intro q now maxCalls timeWindow
  simp only [check_rate_limit, evictExpired_eq_dropWhile]
  split <;> simp

/-- C6: `validate_timezone` is a total function of the input string: it
returns the normalized name produced by the timezone resolver when the
latter succeeds, and the invalid marker (`False`) when the resolver fails
with `UnknownTimeZoneError`; no exception crosses its boundary. -/
theorem validate_timezone_total (resolve : String → Option String) (tz : String) :
    (∃ n, validate_timezone resolve tz = .name n ∧ resolve tz = some n) ∨
    (validate_timezone resolve tz = .invalid ∧ resolve tz = none) := by
  cases h : resolve tz with
  | none => exact Or.inr ⟨by simp [validate_timezone, h], rfl⟩
  | some n => exact Or.inl ⟨n, by simp [validate_timezone, h], rfl⟩

/-- C9: in every store state reachable through the Store interface from the
empty database, no subscription row references a missing reminder; in
particular deleting a reminder cascades to all of its subscriptions and
leaves no orphans. -/
theorem store_no_orphans (st : StoreState) (h : Reachable st) : NoOrphans st := by
  induction h with
  | empty => intro p hp; simp at hp
  | create e _ ih =>
    intro p hp
    unfold createReminder at hp ⊢
    split at hp
    · next hmem => simp only [if_pos hmem]; exact ih p hp
    · next hmem => simp only [if_neg hmem]; exact List.mem_cons_of_mem _ (ih p hp)
  | @subscribe st e u _ ih =>
    intro p hp
    unfold addSubscription at hp ⊢
    split at hp
    · next hc =>
      rw [if_pos hc]
      simp only at hp
      rcases List.mem_cons.mp hp with rfl | hp'
      · exact hc.1
      · exact ih p hp'
    · next hc =>
      rw [if_neg hc]
      exact ih p hp
  | unsubscribe e u _ ih =>
    intro p hp
    unfold removeSubscription at hp
    simp only [List.mem_filter] at hp
    exact ih p hp.1
  | delete e _ ih =>
    intro p hp
    unfold deleteReminder at hp ⊢
    simp only [List.mem_filter, decide_eq_true_eq] at hp ⊢
    exact ⟨ih p hp.1, hp.2⟩

/-- C9 witness: create a reminder, subscribe a user to it, then delete the
reminder; the reachable result has no orphaned subscriptions. -/
theorem store_no_orphans_witness :
    NoOrphans (deleteReminder
      (addSubscription (createReminder { reminders := [], subs := [] } ("r1")) ("r1") ("u1"))
      ("r1")) :=
  store_no_orphans _
    (Reachable.delete _ (Reachable.subscribe _ _ (Reachable.create _ Reachable.empty)))

lemma encryptRow_idem (enc : List Char → List Char) (dec : List Char → Option (List Char))
    (hrt : ∀ m, (dec (enc m)).isSome) (r : String × Option (List Char)) :
    encryptRow enc dec (encryptRow enc dec r) = encryptRow enc dec r := by
  obtain ⟨id, msg⟩ := r
  cases msg with
  | none => rfl
  | some m =>
    by_cases hm : m = []
    · simp [encryptRow, hm]
    · cases hd : dec m with
      | some x => simp [encryptRow, hm, hd]
      | none =>
        simp only [encryptRow, if_neg hm, hd]
        by_cases he : enc m = []
        · simp [he]
        · have := hrt m
          cases hdm : dec (enc m) with
          | none => rw [hdm] at this; simp at this
          | some y => simp [he, hdm]

/-- C10: the message-encryption migration `upgrade_v2` is idempotent —
because every row is test-decrypted first and only rows that fail decryption
are rewritten, a second run (under the Fernet round-trip guarantee
`dec (enc m)` succeeds) changes nothing; rows whose message is `NULL` or
empty are never touched by any run. -/
theorem upgrade_v2_idempotent (enc : List Char → List Char)
    (dec : List Char → Option (List Char)) (hrt : ∀ m, (dec (enc m)).isSome)
    (rows : List (String × Option (List Char))) :
    upgrade_v2 enc dec (upgrade_v2 enc dec rows) = upgrade_v2 enc dec rows
    ∧ ∀ r ∈ rows, (r.2 = none ∨ r.2 = some []) → encryptRow enc dec r = r := by
  constructor
  · unfold upgrade_v2
    rw [List.map_map]
    exact List.map_congr_left (fun r _ => encryptRow_idem enc dec hrt r)
  · rintro ⟨id, msg⟩ _ (h | h) <;> simp only at h <;> subst h <;> simp [encryptRow]

/-- C8 counterexample: `format_time` maps the two distinct future instants
`now + 26h30m` and `now + 26h` (both whole seconds, both within seven days)
to the same string "in 1 day and 2 hours", because only the two most
significant components of the difference are printed; hence no re-parser can
return the original instant for both, and the round-trip-to-the-second claim
fails. -/
theorem format_time_collision :
    format_time oracleNone 0 95400000000 ui0 defaultTimeFormat =
      format_time oracleNone 0 93600000000 ui0 defaultTimeFormat
    ∧ (95400000000 : Nat) ≠ 93600000000
    ∧ (0 : Nat) < 93600000000 ∧ (0 : Nat) < 95400000000
    ∧ 95400000000 % 1000000 = 0 ∧ 93600000000 % 1000000 = 0 := by
  refine ⟨by decide, by decide, by decide, by decide, by decide, by decide⟩

/-- C8 (amended): formatting with `format_time` and re-parsing recovers the
instant only up to the formatter's truncation, not to the second: for dates
within seven days only the two most significant duration components are
printed, so there are two distinct future whole-second instants with equal
formatted output, and no re-parsing (in particular `parse_date` under any
dateparser backend, clock, and user context) can map the formatted string
back to both originals. -/
theorem format_time_roundtrip_loss (O2 : DateOracle) (now2 : Nat) (ui2 : UserInfo) :
    (∀ ds, parse_date O2 now2
        (format_time oracleNone 0 95400000000 ui0 defaultTimeFormat).toList ui2 ≠
        .ok 95400000000 ds) ∨
    (∀ ds, parse_date O2 now2
        (format_time oracleNone 0 93600000000 ui0 defaultTimeFormat).toList ui2 ≠
        .ok 93600000000 ds) := by
  have hcol : format_time oracleNone 0 95400000000 ui0 defaultTimeFormat =
      format_time oracleNone 0 93600000000 ui0 defaultTimeFormat := by decide
  by_cases hex : ∃ ds, parse_date O2 now2
      (format_time oracleNone 0 95400000000 ui0 defaultTimeFormat).toList ui2 =
      .ok 95400000000 ds
  · right
    intro ds hds
    obtain ⟨ds1, h1⟩ := hex
    rw [hcol] at h1
    rw [h1] at hds
    injection hds with hval _
    exact absurd hval (by decide)
  · left
    intro ds hds
    exact hex ⟨ds, hds⟩

/-- C1 counterexample: with the clock at instant 1000000 (a whole second)
and a dateparser backend resolving the input to exactly that instant,
`parse_date` returns the timestamp instead of signalling a `PastDate` error,
so a resolved instant equal to ("at or before") the current instant is not
rejected: the code only rejects instants strictly before the clock. -/
theorem parse_date_equal_now_accepted :
    parse_date (oracleConst 1000000) 1000000 ['a'] ui0 = .ok 1000000 ['a'] := by
  decide

/-- C1 (amended): `parse_date` never returns an instant strictly before the
injected clock's current time: whenever the resolved
(whole-second-truncated) timestamp is strictly before the clock, it signals
the past-date error whose message cites the rejected time rendered by
`format_time` in the user's locale/timezone context, and returns no
timestamp; an instant at or after the clock is returned. -/
theorem parse_date_past_rejection (O : DateOracle) (now : Nat) (s : List Char) (ui : UserInfo) :
    (∀ d ds, parse_date O now s ui = .ok d ds → now ≤ d)
    ∧ (∀ raw ds, extractDate O ui (weekSub s) = some (raw, ds) → truncUsec raw < now →
        parse_date O now s ui =
          .err (pastDateMsg (format_time O now (truncUsec raw) ui defaultTimeFormat))) := by
  constructor
  · intro d ds h
    simp only [parse_date] at h
    cases hex : extractDate O ui (weekSub s) with
    | none => rw [hex] at h; cases h
    | some pr =>
      obtain ⟨raw, t⟩ := pr
      rw [hex] at h
      simp only at h
      by_cases hlt : truncUsec raw < now
      · rw [if_pos hlt] at h; cases h
      · rw [if_neg hlt] at h
        cases h
        exact Nat.le_of_not_lt hlt
  · intro raw ds hex hlt
    simp only [parse_date, hex]
    rw [if_pos hlt]

/-- C1 witness: with the clock at 1000000 and a backend resolving the text
to instant 0, `parse_date` raises the past-date error citing the formatted
rejected time ("1 second ago"). -/
theorem parse_date_past_rejection_witness :
    extractDate (oracleConst 0) ui0 (weekSub ['a']) = some (0, ['a'])
    ∧ parse_date (oracleConst 0) 1000000 ['a'] ui0 =
        .err (pastDateMsg (format_time (oracleConst 0) 1000000 (truncUsec 0) ui0
          defaultTimeFormat)) :=
  ⟨by decide,
   (parse_date_past_rejection (oracleConst 0) 1000000 ['a'] ui0).2 0 ['a']
     (by decide) (by decide)⟩

/-- C7: every timestamp successfully returned by `parse_date` has a zero
microsecond component, obtained by discarding (flooring away) the
sub-second part of the extracted instant, never by rounding up. -/
theorem parse_date_truncates (O : DateOracle) (now : Nat) (s : List Char) (ui : UserInfo)
    (d : Nat) (ds : List Char) (h : parse_date O now s ui = .ok d ds) :
    d % 1000000 = 0 ∧ ∃ raw, extractDate O ui (weekSub s) = some (raw, ds) ∧
      d = raw / 1000000 * 1000000 ∧ d ≤ raw := by
  simp only [parse_date] at h
  cases hex : extractDate O ui (weekSub s) with
  | none => rw [hex] at h; cases h
  | some pr =>
    obtain ⟨raw, t⟩ := pr
    rw [hex] at h
    simp only at h
    by_cases hlt : truncUsec raw < now
    · rw [if_pos hlt] at h; cases h
    · rw [if_neg hlt] at h
      cases h
      exact ⟨Nat.mul_mod_left _ _, raw, rfl, rfl, Nat.div_mul_le_self raw 1000000⟩

/-- C7 witness: a backend resolving to the instant 1234567 (1.234567 s)
yields the returned timestamp 1000000 (1 s exactly): truncated downward,
microseconds zero. -/
theorem parse_date_truncates_witness :
    parse_date (oracleConst 1234567) 0 ['a'] ui0 = .ok 1000000 ['a']
    ∧ 1000000 % 1000000 = 0 :=
  ⟨by decide,
   (parse_date_truncates (oracleConst 1234567) 0 ['a'] ui0 1000000 ['a'] (by decide)).1⟩

/-- C10 witness: with a concrete cipher (prepend `E`; decryption strips a
leading `E` and fails otherwise), a second migration run over a mixed row
set changes nothing, and `NULL`/empty rows are untouched. -/
theorem upgrade_v2_idempotent_witness :
    upgrade_v2 (fun m => 'E' :: m)
        (fun m => match m with | 'E' :: r => some r | _ => none)
        (upgrade_v2 (fun m => 'E' :: m)
          (fun m => match m with | 'E' :: r => some r | _ => none)
          [("a", some ['h', 'i']), ("b", none), ("c", some []), ("d", some ['E', 'x'])]) =
      upgrade_v2 (fun m => 'E' :: m)
        (fun m => match m with | 'E' :: r => some r | _ => none)
        [("a", some ['h', 'i']), ("b", none), ("c", some []), ("d", some ['E', 'x'])]
    ∧ encryptRow (fun m => 'E' :: m)
        (fun m => match m with | 'E' :: r => some r | _ => none) ("b", none) = ("b", none) := by
  have h := upgrade_v2_idempotent (fun m => 'E' :: m)
    (fun m => match m with | 'E' :: r => some r | _ => none)
    (fun m => by simp)
    [("a", some ['h', 'i']), ("b", none), ("c", some []), ("d", some ['E', 'x'])]
  exact ⟨h.1, h.2 ("b", none) (by simp) (Or.inl rfl)⟩

/-- C3: the prefix-anchored strategy of `parse_date` considers exactly the
prefixes of the week-normalized text ending at the first 8 whitespace-token
boundaries, trying them from longest to shortest and stopping at the first
success: when `e2` is a candidate boundary whose prefix parses and every
longer candidate prefix fails, the strategy selects the boundary-`e2` prefix
verbatim together with its parsed date (so whenever both a longer and a
shorter candidate prefix parse, the longer one wins), and `parse_date`
returns exactly that prefix and its (truncated) date. -/
theorem parse_date_longest_anchor (O : DateOracle) (now : Nat) (s : List Char)
    (ui : UserInfo) (e2 d : Nat)
    (hmem : e2 ∈ (tokenEnds (weekSub s)).take 8)
    (hpe : O.parse ui ((weekSub s).take e2) = some d)
    (hmax : ∀ e3 ∈ (tokenEnds (weekSub s)).take 8, e2 < e3 →
      O.parse ui ((weekSub s).take e3) = none) :
    anchoredSearch (O.parse ui) (weekSub s) = some (d, (weekSub s).take e2)
    ∧ parse_date O now s ui =
        (if truncUsec d < now then
          .err (pastDateMsg (format_time O now (truncUsec d) ui defaultTimeFormat))
        else .ok (truncUsec d) ((weekSub s).take e2)) := by
  have hpw : ((tokenEnds (weekSub s)).take 8).Pairwise (· < ·) :=
    List.Pairwise.sublist (List.take_sublist 8 _) (tokenEndsGo_pairwise (weekSub s) 0)
  have hpwrev : (((tokenEnds (weekSub s)).take 8).reverse).Pairwise (fun a b => b < a) := by
    rw [List.pairwise_reverse]
    exact hpw
  obtain ⟨e4, d4, hmem4, hle4, hpe4, _, hfind⟩ :=
    findFirstParse_max (O.parse ui) (weekSub s) ((tokenEnds (weekSub s)).take 8).reverse
      hpwrev e2 (List.mem_reverse.mpr hmem) (by rw [hpe]; rfl)
  have hmem4b : e4 ∈ (tokenEnds (weekSub s)).take 8 := List.mem_reverse.mp hmem4
  have he24 : e4 = e2 := by
    rcases Nat.lt_or_ge e2 e4 with hlt | hge
    · exact absurd hpe4 (by rw [hmax e4 hmem4b hlt]; simp)
    · omega
  subst he24
  rw [hpe] at hpe4
  cases hpe4
  have hanch : anchoredSearch (O.parse ui) (weekSub s) = some (d, (weekSub s).take e4) := hfind
  exact ⟨hanch, parse_date_of_anchored O now s ui d ((weekSub s).take e4) hanch⟩

/-- C3 witness: on the text "1 2 3" (candidate boundaries 1, 3, 5) with a
backend parsing the prefixes of length 1 and 3 but not 5, the anchored
strategy picks the longer successful prefix "1 2" and its date. -/
theorem parse_date_longest_anchor_witness :
    anchoredSearch ((oracleByLen (fun n => if n = 1 then some 5000000 else
        if n = 3 then some 7000000 else none)).parse ui0)
      (weekSub ['1', ' ', '2', ' ', '3']) =
      some (7000000, (weekSub ['1', ' ', '2', ' ', '3']).take 3)
    ∧ parse_date (oracleByLen (fun n => if n = 1 then some 5000000 else
        if n = 3 then some 7000000 else none)) 1000000 ['1', ' ', '2', ' ', '3'] ui0 =
      .ok 7000000 ['1', ' ', '2'] := by
  have h := parse_date_longest_anchor
    (oracleByLen (fun n => if n = 1 then some 5000000 else
      if n = 3 then some 7000000 else none))
    1000000 ['1', ' ', '2', ' ', '3'] ui0 3 7000000 (by decide) (by decide) (by decide)
  refine ⟨h.1, ?_⟩
  rw [h.2]
  decide

/-- C4: when no prefix-anchored parse succeeds (every prefix ending at one
of the first 8 token boundaries of the week-normalized text fails),
`parse_date` falls back to `search_dates` over the whole normalized string
using only the primary-language part of the user's locale, accepting the
first match found (its text span becomes the consumed substring, its
resolved date the result); when the fallback finds nothing either,
`parse_date` signals the syntax error carrying the date-format usage
examples. -/
theorem parse_date_fallback (O : DateOracle) (now : Nat) (s : List Char) (ui : UserInfo)
    (hfail : ∀ e ∈ (tokenEnds (weekSub s)).take 8, O.parse ui ((weekSub s).take e) = none) :
    (O.search_dates (primaryLang ui.locale) ui (weekSub s) = [] →
      parse_date O now s ui = .err dateNotFoundMsg)
    ∧ (∀ t d rest, O.search_dates (primaryLang ui.locale) ui (weekSub s) = (t, d) :: rest →
      parse_date O now s ui =
        (if truncUsec d < now then
          .err (pastDateMsg (format_time O now (truncUsec d) ui defaultTimeFormat))
        else .ok (truncUsec d) t)) := by
  have hanch : anchoredSearch (O.parse ui) (weekSub s) = none := by
    apply findFirstParse_eq_none
    intro e he
    exact hfail e (List.mem_reverse.mp he)
  constructor
  · intro hse
    simp only [parse_date, extractDate, hanch, hse]
  · intro t d rest hse
    simp only [parse_date, extractDate, hanch, hse]

/-- C4 witness: a backend that fails on every prefix but whose free-text
search over "hi" (primary language of locale "en") finds the span "8" at
instant 5000000; `parse_date` returns that span and date.  The locale
`en-AU` exercises the primary-language split. -/
theorem parse_date_fallback_witness :
    parse_date (oracleSearchOnly ['8'] 5000000) 1000000 ['h', 'i']
        { locale := "en-AU", timezone := "UTC" } = .ok 5000000 ['8']
    ∧ primaryLang "en-AU" = "en" := by
  have h := (parse_date_fallback (oracleSearchOnly ['8'] 5000000) 1000000 ['h', 'i']
    { locale := "en-AU", timezone := "UTC" } (by decide)).2 ['8'] 5000000 [] (by decide)
  refine ⟨?_, by decide⟩
  rw [h]
  decide

/-- C5: before any parsing attempt, `parse_date` normalizes the week
shorthand exactly once.  The matcher accepts precisely a word boundary, a
nonempty digit group, an optional single whitespace character, and a bare
`w` at a word boundary (the `IsWeekMatch` characterization); the rewrite
`weekSub` replaces only the leftmost such occurrence with the digit group
followed by the token `wk`, leaving everything before and after — in
particular every later occurrence — unchanged (the `specWeekSub`
characterization), as the concrete two-occurrence input "3w and 4w" →
"3wk and 4w" also shows. -/
theorem weekSub_leftmost_once :
    (∀ (bnd : Bool) (cs ds r : List Char),
      weekMatchHead bnd cs = some (ds, r) ↔ IsWeekMatch bnd cs ds r)
    ∧ (∀ s : List Char, weekSub s = specWeekSub s)
    ∧ weekSub ['3', 'w', ' ', 'a', 'n', 'd', ' ', '4', 'w'] =
        ['3', 'w', 'k', ' ', 'a', 'n', 'd', ' ', '4', 'w'] :=
  ⟨weekMatchHead_eq_some_iff, fun s => weekSubGo_eq_specGo s none, by decide⟩

/-- C5 witness: the two-occurrence input "12w 3w" agrees with the
declarative characterization and rewrites only its first occurrence. -/
theorem weekSub_leftmost_once_witness :
    weekSub ['1', '2', 'w', ' ', '3', 'w'] = specWeekSub ['1', '2', 'w', ' ', '3', 'w']
    ∧ weekSub ['1', '2', 'w', ' ', '3', 'w'] = ['1', '2', 'w', 'k', ' ', '3', 'w'] :=
  ⟨weekSub_leftmost_once.2.1 ['1', '2', 'w', ' ', '3', 'w'], by decide⟩

end Reminder
